import Mathlib

/-!
# Verification of the A.T.O.M.S resume-matching pipeline

Shallow embedding of the matching pipeline of `resume_matcher_enhanced.py`:
text normalization (`normalize_text`, `remove_spaced_out_words`,
`extract_candidate_name`), model provisioning (`load_model`), scoring and
ranking (`rank_resumes`), and the background worker
(`EnhancedResumeRankerGUI.process_resumes_worker`).

Strings are modelled as `List Char` at the core, with `String` wrappers.
Progress fractions and similarity scores are modelled as `ℚ`.  Calls to the
opaque sentence-transformer model are recorded as an explicit trace.
-/

namespace ResumeMatcher

/-! ## Character classes

`isSpaceChar` is the set matched by Python's `\s` on `str` (and stripped by
`str.strip()`).  `isUpperAZ` is the regex class `[A-Z]` used by
`remove_spaced_out_words`. -/

def isSpaceChar (c : Char) : Bool :=
  let n := c.toNat
  (9 ≤ n && n ≤ 13) || (28 ≤ n && n ≤ 31) || n == 32 || n == 133 || n == 160 ||
  n == 5760 || (8192 ≤ n && n ≤ 8202) || n == 8232 || n == 8233 ||
  n == 8239 || n == 8287 || n == 12288

def isUpperAZ (c : Char) : Bool :=
  65 ≤ c.toNat && c.toNat ≤ 90

/-! ## Pass 2: whitespace collapse and strip

`normalize_text` does `text.strip()` then `re.sub(r'\s+', ' ', text)`. -/

/-- Scanner for `re.sub(r'\s+', ' ', ·)`: replace every maximal run of
whitespace by one ASCII space.  `inWS` records whether the previous character
belonged to a whitespace run whose replacement `' '` has already been
emitted. -/
def collapseAux : List Char → Bool → List Char
  | [], _ => []
  | c :: rest, inWS =>
    if isSpaceChar c then
      if inWS then collapseAux rest true else ' ' :: collapseAux rest true
    else c :: collapseAux rest false

/-- `re.sub(r'\s+', ' ', ·)`. -/
def collapseWS (l : List Char) : List Char :=
  collapseAux l false

/-- `str.strip()`: remove leading and trailing whitespace. -/
def stripList (l : List Char) : List Char :=
  ((l.dropWhile isSpaceChar).reverse.dropWhile isSpaceChar).reverse

/-! ## Pass 1: de-spacing

`remove_spaced_out_words` is
`re.sub(r'(?<!\S)(?:[A-Z]\s)+(?:[A-Z])(?!\S)', lambda m: m.group(0).replace(" ", ""), text)`.
-/

/-- The final-letter test of the de-spacing regex: can `(?:[A-Z])(?!\S)`
match at the head of the list? -/
def headUB : List Char → Bool
  | [] => false
  | [c] => isUpperAZ c
  | c :: d :: _ => isUpperAZ c && isSpaceChar d

/-- `matchSpaced l` returns the length of the match of
`(?:[A-Z]\s)+(?:[A-Z])(?!\S)` at the head of `l` (the greedy `+` with
backtracking selects the longest valid repetition), or `none`. -/
def matchSpaced : List Char → Option Nat
  | a :: b :: rest =>
    if isUpperAZ a && isSpaceChar b then
      match matchSpaced rest with
      | some n => some (n + 2)
      | none => if headUB rest then some 3 else none
    else none
  | _ => none

/-- The scanner of `re.sub` for the de-spacing pattern, with explicit fuel so
that it is structural (and hence evaluates in the kernel).  `atB` records
whether the lookbehind `(?<!\S)` holds at the current position (start of
string, or the previous character is whitespace; after a replaced match it is
false, the previous character being the final `[A-Z]` of the match).  Inside a
match the lambda removes only ASCII spaces (`.replace(" ", "")`). -/
def rsowGo : Nat → List Char → Bool → List Char
  | 0, l, _ => l
  | _ + 1, [], _ => []
  | fuel + 1, c :: rest, false => c :: rsowGo fuel rest (isSpaceChar c)
  | fuel + 1, c :: rest, true =>
    match matchSpaced (c :: rest) with
    | some n =>
        ((c :: rest).take n).filter (fun x => x ≠ ' ') ++
          rsowGo fuel ((c :: rest).drop n) false
    | none => c :: rsowGo fuel rest (isSpaceChar c)

/-- The de-spacing scanner at a given position/lookbehind state. -/
def rsowA (l : List Char) (atB : Bool) : List Char :=
  rsowGo l.length l atB

/-- The source's `remove_spaced_out_words` (the lookbehind holds at the start
of the string). -/
def remove_spaced_out_words (l : List Char) : List Char :=
  rsowA l true

/-- `normalize_text` on `List Char`: de-space, strip, collapse whitespace. -/
def normalizeList (l : List Char) : List Char :=
  collapseWS (stripList (remove_spaced_out_words l))

/-- The source's `normalize_text`, on `String`. -/
def normalize_text (s : String) : String :=
  String.mk (normalizeList s.data)

/-! ## Whitespace normal form

A list of characters is in whitespace normal form when its only whitespace
characters are ASCII spaces, no two of them are adjacent, and none occurs at
either end.  This is exactly the shape `strip` + collapse produce. -/

def spacesOnly (l : List Char) : Bool :=
  l.all (fun c => !isSpaceChar c || c == ' ')

def noAdjWS : List Char → Bool
  | [] => true
  | [_] => true
  | a :: b :: rest => !(isSpaceChar a && isSpaceChar b) && noAdjWS (b :: rest)

def headNotWS (l : List Char) : Bool :=
  match l.head? with
  | none => true
  | some c => !isSpaceChar c

def lastNotWS (l : List Char) : Bool :=
  headNotWS l.reverse

def wsNormal (l : List Char) : Bool :=
  spacesOnly l && noAdjWS l && headNotWS l && lastNotWS l

/-! ## Candidate-name extraction

`extract_candidate_name` returns the first line of the raw text whose
`strip()` is non-empty, otherwise the empty string.  `splitlinesAux` models
Python's `str.splitlines()` (line breaks: `\n`, `\r`, `\r\n`, `\v`, `\f`,
`\x1c`-`\x1e`, `\x85`, ` `, ` `). -/

def isLineBreak (c : Char) : Bool :=
  let n := c.toNat
  n == 10 || n == 13 || n == 11 || n == 12 || n == 28 || n == 29 || n == 30 ||
  n == 133 || n == 8232 || n == 8233

def splitlinesAux : List Char → List Char → List (List Char)
  | [], acc => if acc.isEmpty then [] else [acc.reverse]
  | '\r' :: '\n' :: rest, acc => acc.reverse :: splitlinesAux rest []
  | c :: rest, acc =>
    if isLineBreak c then acc.reverse :: splitlinesAux rest []
    else splitlinesAux rest (c :: acc)

def splitlines (l : List Char) : List (List Char) :=
  splitlinesAux l []

def extractCandidateNameL (l : List Char) : List Char :=
  ((((splitlines l).map stripList).find? (fun x => !x.isEmpty)).getD [])

/-- The source's `extract_candidate_name`, on `String`. -/
def extract_candidate_name (s : String) : String :=
  String.mk (extractCandidateNameL s.data)

/-! ## Ranking

`rank_resumes` ends with
`sorted(zip(resumes, cosine_scores), key=lambda x: x[1], reverse=True)`.
Python's `sorted` is a stable sort; with a key and `reverse=True`, ties keep
their input order.  A stable descending sort by the score is modelled by
insertion sort (`sortDesc`), which computes the same (unique) output. -/

def insertDesc {α : Type} (p : α × ℚ) : List (α × ℚ) → List (α × ℚ)
  | [] => [p]
  | q :: rest => if q.2 ≤ p.2 then p :: q :: rest else q :: insertDesc p rest

def sortDesc {α : Type} : List (α × ℚ) → List (α × ℚ)
  | [] => []
  | p :: rest => insertDesc p (sortDesc rest)

/-- Scores are in weakly decreasing order. -/
def sortedDescB {α : Type} : List (α × ℚ) → Bool
  | [] => true
  | [_] => true
  | p :: q :: rest => decide (q.2 ≤ p.2) && sortedDescB (q :: rest)

/-! ## Model provisioning (`load_model`)

`load_model` checks `os.path.exists(model_path)`.  The filesystem state is
modelled by the boolean `modelSaved`; callbacks to `progress_callback` are
recorded in `events`; whether the model came from the network or from disk is
recorded in `source`. -/

inductive LoadSource
  | downloaded
  | fromDisk
deriving DecidableEq, Repr

structure LoadResult where
  events : List (ℚ × String)
  source : LoadSource
  modelSaved : Bool
deriving DecidableEq, Repr

def load_model (modelSaved : Bool) : LoadResult :=
  if modelSaved then
    { events := [(0, "Loading model from disk..."),
        (1/10, "Loading model components (10%)..."),
        (2/10, "Loading model components (20%)..."),
        (3/10, "Loading model components (30%)..."),
        (4/10, "Loading model components (40%)..."),
        (5/10, "Loading model components (50%)..."),
        (6/10, "Loading model components (60%)..."),
        (7/10, "Loading model components (70%)..."),
        (8/10, "Loading model components (80%)..."),
        (9/10, "Loading model components (90%)..."),
        (10/10, "Loading model components (100%)..."),
        (1, "Model loaded successfully")]
      source := LoadSource.fromDisk
      modelSaved := true }
  else
    { events := [(0, "Downloading model for first use. This may take a few minutes..."),
        (1, "Model downloaded successfully")]
      source := LoadSource.downloaded
      modelSaved := true }

/-! ## Scoring and ranking (`rank_resumes`)

The sentence-transformer model is opaque: it is modelled as a function from
texts to embedding vectors together with a similarity function (the cosine
computed by `util.pytorch_cos_sim`).  The two `model.encode(...)` invocations
performed by `rank_resumes` — one on the job description, one on the batch of
resume texts — are recorded in `encodeCalls`. -/

structure Resume where
  file_name : String
  candidate_name : String
  text : String
  full_path : String
deriving DecidableEq, Repr

inductive EncodeCall
  | single (text : String)
  | batch (texts : List String)
deriving DecidableEq, Repr

structure STModel where
  encode : String → List ℚ
  sim : List ℚ → List ℚ → ℚ

structure RankResult where
  ranked : List (Resume × ℚ)
  encodeCalls : List EncodeCall
  events : List (ℚ × String)

def rank_resumes (model : STModel) (resumes : List Resume)
    (job_description : String) : RankResult :=
  let job_embedding := model.encode job_description
  let resume_texts := resumes.map (fun r => r.text)
  let resume_embeddings := resume_texts.map model.encode
  let cosine_scores := resume_embeddings.map (fun e => model.sim job_embedding e)
  { ranked := sortDesc (resumes.zip cosine_scores)
    encodeCalls := [EncodeCall.single job_description, EncodeCall.batch resume_texts]
    events := [(0, "Encoding job description..."), (0.2, "Encoding resumes..."),
      (0.7, "Computing similarity scores..."), (0.9, "Ranking resumes..."),
      (1, "Ranking complete")] }

/-! ## The background worker (`EnhancedResumeRankerGUI.process_resumes_worker`)

The worker loads the model (reporting progress on the full `[0,1]` range),
then — unless pre-processed data is present — extracts text from each
selected file, catching per-file extraction failures individually (the
`except` branch prints a warning), builds one record per surviving file,
raises `ValueError("No valid resumes could be processed.")` when none
survive, and otherwise ranks, rescaling the ranking progress into
`[0.5, 1.0]`.  The `except` around the whole body routes any raised error to
`handle_error` (the failure sink); success is delivered through
`update_results_display`. -/

def basename (p : String) : String :=
  String.mk ((p.data.reverse.takeWhile (fun c => c ≠ '/')).reverse)

inductive Outcome
  | success (ranked : List (Resume × ℚ))
  | failure (msg : String)
deriving DecidableEq, Repr

structure WorkerResult where
  events : List (ℚ × String)
  warnings : List String
  resumesUsed : List Resume
  outcome : Outcome

def buildResume (path raw : String) : Resume :=
  let candidate_name := extract_candidate_name raw
  { file_name := basename path
    candidate_name := if candidate_name = "" then "Unknown Name" else candidate_name
    text := normalize_text raw
    full_path := path }

def extractResumes (extractor : String → Except String String)
    (files : List String) : List Resume :=
  files.filterMap fun p =>
    match extractor p with
    | Except.ok t => some (buildResume p t)
    | Except.error _ => none

def extractWarnings (extractor : String → Except String String)
    (files : List String) : List String :=
  files.filterMap fun p =>
    match extractor p with
    | Except.ok _ => none
    | Except.error e => some ("Warning: Could not process " ++ basename p ++ ": " ++ e)

def extractionEventsGo (n : Nat) : Nat → List String → List (ℚ × String)
  | _, [] => []
  | i, p :: rest =>
      (((i : ℚ) + 1) / (n : ℚ) * 0.5,
        "Extracting text (" ++ toString (i + 1) ++ "/" ++ toString n ++ "): " ++
          basename p) :: extractionEventsGo n (i + 1) rest

def extractionEvents (files : List String) : List (ℚ × String) :=
  (0, "Extracting text (0/" ++ toString files.length ++ ")...") ::
    extractionEventsGo files.length 0 files

def process_resumes_worker (modelSaved : Bool) (model : STModel)
    (preloaded : List Resume) (files : List String)
    (extractor : String → Except String String)
    (role description : String) : WorkerResult :=
  let lm := load_model modelSaved
  let resumes := if preloaded ≠ [] then preloaded else extractResumes extractor files
  let warnings := if preloaded ≠ [] then [] else extractWarnings extractor files
  let extractEvts :=
    if preloaded ≠ [] then [((0.5 : ℚ), "Using pre-processed resume data...")]
    else extractionEvents files
  if resumes = [] then
    { events := lm.events ++ extractEvts
      warnings := warnings
      resumesUsed := []
      outcome := Outcome.failure "No valid resumes could be processed." }
  else
    let full_job_desc := "Job Role: " ++ role ++ "\n\n" ++ description
    let rr := rank_resumes model resumes full_job_desc
    { events := lm.events ++ extractEvts ++
        (rr.events.map fun e => (0.5 + e.1 * 0.5, e.2))
      warnings := warnings
      resumesUsed := resumes
      outcome := Outcome.success rr.ranked }

/-- Is a sequence of progress fractions non-decreasing? -/
def nonDecreasing : List ℚ → Bool
  | [] => true
  | [_] => true
  | a :: b :: rest => decide (a ≤ b) && nonDecreasing (b :: rest)

/-- A trivial model used for concrete runs. -/
def M0 : STModel :=
  { encode := fun _ => [], sim := fun _ _ => 0 }

/-! ## Worker-level support lemmas -/

def extractFails (extractor : String → Except String String) (p : String) : Bool :=
  match extractor p with
  | Except.error _ => true
  | Except.ok _ => false

/-- Number of supplied files whose extraction fails. -/
def failedCount (extractor : String → Except String String)
    (files : List String) : Nat :=
  (files.filter fun p => extractFails extractor p).length

/-- Concrete extractors used by the witnesses and counterexamples. -/
def exOkText : String → Except String String := fun _ => Except.ok "text"

def exOkEmpty : String → Except String String := fun _ => Except.ok ""

def exBoom : String → Except String String := fun _ => Except.error "boom"

def exMixed : String → Except String String := fun p =>
  if p = "b.pdf" ∨ p = "d.pdf" then Except.error "bad" else Except.ok "text"

def rA : Resume := { file_name := "A", candidate_name := "A", text := "a", full_path := "A" }

def rB : Resume := { file_name := "B", candidate_name := "B", text := "b", full_path := "B" }

def rC : Resume := { file_name := "C", candidate_name := "C", text := "c", full_path := "C" }

theorem isSpaceChar_space : isSpaceChar ' ' = true := by decide

theorem isUpperAZ_not_space {c : Char} (h : isUpperAZ c = true) :
    isSpaceChar c = false := by
  simp only [isUpperAZ, Bool.and_eq_true, decide_eq_true_eq] at h
  simp only [isSpaceChar, Bool.or_eq_false_iff, Bool.and_eq_false_iff,
    beq_eq_false_iff_ne, ne_eq, decide_eq_false_iff_not, not_le]
  omega

theorem isUpperAZ_ne_space {c : Char} (h : isUpperAZ c = true) : c ≠ ' ' := by
  intro hc
  have := isUpperAZ_not_space h
  rw [hc, isSpaceChar_space] at this
  simp at this

/-- Structure of a successful regex match: it has length at least 3, it is
made of uppercase letters and whitespace, starts and ends with an uppercase
letter, and is followed by the `(?!\S)` boundary (end of string or
whitespace). -/
theorem matchSpaced_spec : ∀ (l : List Char) (n : Nat), matchSpaced l = some n →
    3 ≤ n ∧ n ≤ l.length ∧
    (∃ a r, l = a :: r ∧ isUpperAZ a = true) ∧
    (∀ c ∈ l.take n, isUpperAZ c = true ∨ isSpaceChar c = true) ∧
    (∃ X u, l.take n = X ++ [u] ∧ isUpperAZ u = true) ∧
    (l.drop n = [] ∨ ∃ d r, l.drop n = d :: r ∧ isSpaceChar d = true) := by
  intro l
  induction l using matchSpaced.induct with
  | case1 a b rest hab m hm ih =>
      intro n h
      simp only [matchSpaced, hab, if_true, hm] at h
      obtain ⟨ha, hb⟩ := Bool.and_eq_true _ _ |>.mp hab
      obtain ⟨h3, hlen, -, hmem, ⟨X, u, hXu, hu⟩, hdrop⟩ := ih m hm
      have hn := Option.some.inj h
      subst hn
      refine ⟨by omega, by simp only [List.length_cons]; omega,
        ⟨a, b :: rest, rfl, ha⟩, ?_, ?_, ?_⟩
      · intro c hc
        simp only [show m + 2 = (m + 1) + 1 from rfl, List.take_succ_cons,
          List.mem_cons] at hc
        rcases hc with rfl | rfl | hc
        · exact Or.inl ha
        · exact Or.inr hb
        · exact hmem c hc
      · refine ⟨a :: b :: X, u, ?_, hu⟩
        simp only [show m + 2 = (m + 1) + 1 from rfl, List.take_succ_cons, hXu,
          List.cons_append]
      · simpa only [show m + 2 = (m + 1) + 1 from rfl, List.drop_succ_cons]
          using hdrop
  | case2 a b rest hab hm hub ih =>
      intro n h
      simp only [matchSpaced, hab, if_true, hm, hub] at h
      obtain ⟨ha, hb⟩ := Bool.and_eq_true _ _ |>.mp hab
      have hn := Option.some.inj h
      subst hn
      cases rest with
      | nil => simp [headUB] at hub
      | cons c t =>
          cases t with
          | nil =>
              have hc : isUpperAZ c = true := hub
              refine ⟨le_refl 3, by simp, ⟨a, [b, c], rfl, ha⟩, ?_,
                ⟨[a, b], c, by simp [List.take], hc⟩, Or.inl (by simp)⟩
              intro x hx
              simp only [List.take, List.mem_cons, List.not_mem_nil, or_false] at hx
              rcases hx with rfl | rfl | rfl
              · exact Or.inl ha
              · exact Or.inr hb
              · exact Or.inl hc
          | cons d t' =>
              obtain ⟨hc, hd⟩ := Bool.and_eq_true _ _ |>.mp hub
              refine ⟨le_refl 3, by simp only [List.length_cons]; omega,
                ⟨a, b :: c :: d :: t', rfl, ha⟩, ?_,
                ⟨[a, b], c, by simp [List.take], hc⟩,
                Or.inr ⟨d, t', by simp [List.drop], hd⟩⟩
              intro x hx
              simp only [List.take, List.mem_cons, List.not_mem_nil, or_false] at hx
              rcases hx with rfl | rfl | rfl
              · exact Or.inl ha
              · exact Or.inr hb
              · exact Or.inl hc
  | case3 a b rest hab hm hub ih =>
      intro n h
      simp [matchSpaced, hab, hm, hub] at h
  | case4 a b rest hab =>
      intro n h
      simp [matchSpaced, hab] at h
  | case5 t ht =>
      intro n h
      match t, ht with
      | [], _ => simp [matchSpaced] at h
      | [a], _ => simp [matchSpaced] at h
      | a :: b :: r, ht => exact absurd rfl (by intro hf; exact ht a b r hf)

theorem matchSpaced_pos {l : List Char} {n : Nat} (h : matchSpaced l = some n) :
    3 ≤ n ∧ n ≤ l.length :=
  ⟨(matchSpaced_spec l n h).1, (matchSpaced_spec l n h).2.1⟩

theorem rsowGo_congr : ∀ (f₁ : Nat) (l : List Char) (b : Bool) (f₂ : Nat),
    l.length ≤ f₁ → l.length ≤ f₂ → rsowGo f₁ l b = rsowGo f₂ l b := by
  intro f₁
  induction f₁ with
  | zero =>
      intro l b f₂ h₁ h₂
      have : l = [] := List.length_eq_zero.mp (Nat.le_zero.mp h₁)
      subst this
      cases f₂ <;> rfl
  | succ f ih =>
      intro l b f₂ h₁ h₂
      match l with
      | [] => cases f₂ <;> rfl
      | c :: rest =>
          match f₂, h₂ with
          | f₂' + 1, h₂ =>
              simp only [List.length_cons] at h₁ h₂
              cases b with
              | false =>
                  simp only [rsowGo]
                  rw [ih rest _ f₂' (by omega) (by omega)]
              | true =>
                  simp only [rsowGo]
                  cases hm : matchSpaced (c :: rest) with
                  | none =>
                      simp only []
                      rw [ih rest _ f₂' (by omega) (by omega)]
                  | some n =>
                      simp only []
                      obtain ⟨h3, hlen⟩ := matchSpaced_pos hm
                      rw [ih ((c :: rest).drop n) false f₂' ?_ ?_]
                      · simp only [List.length_drop, List.length_cons]
                        omega
                      · simp only [List.length_drop, List.length_cons]
                        omega

/-- Step equation: empty input. -/
theorem rsowA_nil (b : Bool) : rsowA [] b = [] := rfl

/-- Step equation: no lookbehind boundary, the character is copied. -/
theorem rsowA_cons_false (c : Char) (rest : List Char) :
    rsowA (c :: rest) false = c :: rsowA rest (isSpaceChar c) := by
  simp only [rsowA, List.length_cons, rsowGo]

/-- Step equation: at a boundary with no match, the character is copied. -/
theorem rsowA_cons_true_none (c : Char) (rest : List Char)
    (hm : matchSpaced (c :: rest) = none) :
    rsowA (c :: rest) true = c :: rsowA rest (isSpaceChar c) := by
  simp only [rsowA, List.length_cons, rsowGo, hm]

/-- Step equation: at a boundary with a match, the match is emitted with its
ASCII spaces removed and scanning resumes after it with the lookbehind
failing. -/
theorem rsowA_cons_true_some (c : Char) (rest : List Char) (n : Nat)
    (hm : matchSpaced (c :: rest) = some n) :
    rsowA (c :: rest) true =
      ((c :: rest).take n).filter (fun x => x ≠ ' ') ++
        rsowA ((c :: rest).drop n) false := by
  obtain ⟨h3, hlen⟩ := matchSpaced_pos hm
  simp only [rsowA, List.length_cons, rsowGo, hm]
  rw [rsowGo_congr rest.length ((c :: rest).drop n) false
    ((c :: rest).drop n).length
    (by simp only [List.length_drop, List.length_cons]; omega) le_rfl]

/-! ## Basic properties of the de-spacing scanner -/

/-- The scanner only deletes characters (never inserts or reorders). -/
theorem rsowA_sublist : ∀ (l : List Char) (b : Bool), (rsowA l b).Sublist l := by
  have H : ∀ (k : Nat) (l : List Char), l.length ≤ k → ∀ b, (rsowA l b).Sublist l := by
    intro k
    induction k with
    | zero =>
        intro l hl b
        obtain rfl := List.length_eq_zero.mp (Nat.le_zero.mp hl)
        simp [rsowA_nil]
    | succ k ih =>
        intro l hl b
        match l with
        | [] => simp [rsowA_nil]
        | c :: rest =>
            simp only [List.length_cons] at hl
            have hrest : rest.length ≤ k := by omega
            cases b with
            | false =>
                rw [rsowA_cons_false]
                exact (ih rest hrest _).cons₂ c
            | true =>
                cases hm : matchSpaced (c :: rest) with
                | none =>
                    rw [rsowA_cons_true_none _ _ hm]
                    exact (ih rest hrest _).cons₂ c
                | some n =>
                    rw [rsowA_cons_true_some _ _ _ hm]
                    obtain ⟨h3, hlen⟩ := matchSpaced_pos hm
                    have hdrop : ((c :: rest).drop n).length ≤ k := by
                      simp only [List.length_drop, List.length_cons]
                      omega
                    have hsub :
                        (((c :: rest).take n).filter (fun x => decide (x ≠ ' ')) ++
                            rsowA ((c :: rest).drop n) false).Sublist
                          ((c :: rest).take n ++ (c :: rest).drop n) :=
                      List.Sublist.append (List.filter_sublist _) (ih _ hdrop false)
                    rwa [List.take_append_drop] at hsub
  intro l b
  exact H l.length l le_rfl b

/-- The scanner never deletes the first character. -/
theorem rsowA_head? (l : List Char) (b : Bool) : (rsowA l b).head? = l.head? := by
  match l, b with
  | [], b => rw [rsowA_nil]
  | c :: rest, false => rw [rsowA_cons_false]; rfl
  | c :: rest, true =>
      cases hm : matchSpaced (c :: rest) with
      | none => rw [rsowA_cons_true_none _ _ hm]; rfl
      | some n =>
          rw [rsowA_cons_true_some _ _ _ hm]
          obtain ⟨h3, -⟩ := matchSpaced_pos hm
          obtain ⟨-, -, ⟨a, r, hshape, ha⟩, -, -, -⟩ := matchSpaced_spec _ _ hm
          have hc : isUpperAZ c = true := by
            injection hshape with h1 h2
            exact h1 ▸ ha
          have hne : c ≠ ' ' := isUpperAZ_ne_space hc
          match n, h3 with
          | n' + 1, _ =>
              simp [List.take_succ_cons, List.filter_cons, hne]

theorem rsowA_eq_nil_iff (l : List Char) (b : Bool) : rsowA l b = [] ↔ l = [] := by
  constructor
  · intro h
    have hh := rsowA_head? l b
    rw [h] at hh
    exact List.head?_eq_none_iff.mp hh.symm
  · rintro rfl
    exact rsowA_nil b

theorem bool_nonspace_and_ne_space (a : Char) :
    (!isSpaceChar a && decide (a ≠ ' ')) = !isSpaceChar a := by
  cases hws : isSpaceChar a with
  | false =>
      have hne : a ≠ ' ' := by
        intro e
        rw [e, isSpaceChar_space] at hws
        cases hws
      simp [hne]
  | true => simp

/-- The scanner deletes only ASCII spaces: the subsequence of
non-whitespace characters is untouched. -/
theorem rsowA_filter_nonspace : ∀ (l : List Char) (b : Bool),
    (rsowA l b).filter (fun c => !isSpaceChar c) =
      l.filter (fun c => !isSpaceChar c) := by
  have H : ∀ (k : Nat) (l : List Char), l.length ≤ k → ∀ b,
      (rsowA l b).filter (fun c => !isSpaceChar c) =
        l.filter (fun c => !isSpaceChar c) := by
    intro k
    induction k with
    | zero =>
        intro l hl b
        obtain rfl := List.length_eq_zero.mp (Nat.le_zero.mp hl)
        rw [rsowA_nil]
    | succ k ih =>
        intro l hl b
        match l with
        | [] => rw [rsowA_nil]
        | c :: rest =>
            simp only [List.length_cons] at hl
            have hrest : rest.length ≤ k := by omega
            cases b with
            | false =>
                rw [rsowA_cons_false, List.filter_cons, List.filter_cons,
                  ih rest hrest _]
            | true =>
                cases hm : matchSpaced (c :: rest) with
                | none =>
                    rw [rsowA_cons_true_none _ _ hm, List.filter_cons,
                      List.filter_cons, ih rest hrest _]
                | some n =>
                    rw [rsowA_cons_true_some _ _ _ hm]
                    obtain ⟨h3, hlen⟩ := matchSpaced_pos hm
                    have hdrop : ((c :: rest).drop n).length ≤ k := by
                      simp only [List.length_drop, List.length_cons]
                      omega
                    rw [List.filter_append, ih _ hdrop false,
                      List.filter_filter]
                    simp only [bool_nonspace_and_ne_space]
                    rw [← List.filter_append, List.take_append_drop]
  intro l b
  exact H l.length l le_rfl b

theorem spacesOnly_mem {l : List Char} {c : Char} (h : spacesOnly l = true)
    (hc : c ∈ l) (hws : isSpaceChar c = true) : c = ' ' := by
  have := (List.all_eq_true.mp h) c hc
  rw [hws] at this
  simpa using this

theorem spacesOnly_of_subset {l l' : List Char} (h : spacesOnly l = true)
    (hsub : l' ⊆ l) : spacesOnly l' = true := by
  refine List.all_eq_true.mpr fun c hc => ?_
  exact (List.all_eq_true.mp h) c (hsub hc)

theorem spacesOnly_tail {c : Char} {rest : List Char}
    (h : spacesOnly (c :: rest) = true) : spacesOnly rest = true :=
  spacesOnly_of_subset h (List.subset_cons_self c rest)

theorem noAdjWS_tail {c : Char} {t : List Char} (h : noAdjWS (c :: t) = true) :
    noAdjWS t = true := by
  cases t with
  | nil => rfl
  | cons d t' => exact (Bool.and_eq_true _ _ |>.mp h).2

theorem noAdjWS_cons_of {x : Char} {t : List Char} (ht : noAdjWS t = true)
    (h : isSpaceChar x = false ∨ headNotWS t = true) : noAdjWS (x :: t) = true := by
  cases t with
  | nil => rfl
  | cons d t' =>
      refine Bool.and_eq_true _ _ |>.mpr ⟨?_, ht⟩
      rcases h with h | h
      · simp [h]
      · have hd : isSpaceChar d = false := by
          simpa [headNotWS] using h
        simp [hd]

theorem noAdjWS_head {c : Char} {t : List Char} (h : noAdjWS (c :: t) = true)
    (hc : isSpaceChar c = true) : headNotWS t = true := by
  cases t with
  | nil => rfl
  | cons d t' =>
      have := (Bool.and_eq_true _ _ |>.mp h).1
      rw [hc] at this
      simp only [headNotWS, List.head?_cons]
      simpa using this

theorem noAdjWS_drop {l : List Char} (h : noAdjWS l = true) (n : Nat) :
    noAdjWS (l.drop n) = true := by
  induction n generalizing l with
  | zero => exact h
  | succ n ih =>
      cases l with
      | nil => rfl
      | cons c t => exact ih (noAdjWS_tail h)

theorem noAdjWS_append_left {X t : List Char}
    (hX : ∀ c ∈ X, isSpaceChar c = false) (ht : noAdjWS t = true) :
    noAdjWS (X ++ t) = true := by
  induction X with
  | nil => exact ht
  | cons x X' ih =>
      refine noAdjWS_cons_of (ih fun c hc => hX c (List.mem_cons_of_mem _ hc)) ?_
      exact Or.inl (hX x (List.mem_cons_self _ _))

theorem headNotWS_dropWhile (l : List Char) :
    headNotWS (l.dropWhile isSpaceChar) = true := by
  induction l with
  | nil => rfl
  | cons c rest ih =>
      rw [List.dropWhile_cons]
      cases hws : isSpaceChar c with
      | true => simpa [hws] using ih
      | false => simp [hws, headNotWS]

theorem lastNotWS_cons {c : Char} {t : List Char} (ht : t ≠ []) :
    lastNotWS (c :: t) = lastNotWS t := by
  have : t.reverse ≠ [] := by simpa using ht
  simp only [lastNotWS, List.reverse_cons, headNotWS,
    List.head?_append_of_ne_nil _ this]

theorem lastNotWS_append {xs t : List Char} (ht : t ≠ []) :
    lastNotWS (xs ++ t) = lastNotWS t := by
  have : t.reverse ≠ [] := by simpa using ht
  simp only [lastNotWS, List.reverse_append, headNotWS,
    List.head?_append_of_ne_nil _ this]

theorem lastNotWS_concat (xs : List Char) (u : Char) :
    lastNotWS (xs ++ [u]) = !isSpaceChar u := by
  simp [lastNotWS, List.reverse_append, headNotWS]

theorem lastNotWS_singleton (c : Char) : lastNotWS [c] = !isSpaceChar c := rfl

/-! ### `strip` and collapse act as the identity on normal forms -/

theorem dropWhile_eq_self_of_headNotWS {l : List Char}
    (h : headNotWS l = true) : l.dropWhile isSpaceChar = l := by
  cases l with
  | nil => rfl
  | cons c rest =>
      have hc : isSpaceChar c = false := by simpa [headNotWS] using h
      rw [List.dropWhile_cons, if_neg (by simp [hc])]

theorem stripList_eq_self {l : List Char} (h1 : headNotWS l = true)
    (h2 : lastNotWS l = true) : stripList l = l := by
  unfold stripList
  rw [dropWhile_eq_self_of_headNotWS h1, dropWhile_eq_self_of_headNotWS h2,
    List.reverse_reverse]

theorem collapseAux_eq_self {l : List Char} (hso : spacesOnly l = true)
    (hadj : noAdjWS l = true) :
    collapseAux l false = l ∧ (headNotWS l = true → collapseAux l true = l) := by
  induction l with
  | nil => exact ⟨rfl, fun _ => rfl⟩
  | cons c rest ih =>
      obtain ⟨ih1, ih2⟩ := ih (spacesOnly_tail hso) (noAdjWS_tail hadj)
      cases hws : isSpaceChar c with
      | true =>
          have hc : c = ' ' := spacesOnly_mem hso (List.mem_cons_self ..) hws
          have hrest : collapseAux rest true = rest :=
            ih2 (noAdjWS_head hadj hws)
          constructor
          · simp only [collapseAux, hws, if_true]
            rw [if_neg (by simp), hrest, hc]
          · intro h
            have hcon : isSpaceChar c = false := by simpa [headNotWS] using h
            rw [hws] at hcon
            cases hcon
      | false =>
          constructor
          · simp only [collapseAux, hws, Bool.false_eq_true, if_false, ih1]
          · intro h
            simp only [collapseAux, hws, Bool.false_eq_true, if_false, ih1]

theorem collapseWS_eq_self {l : List Char} (hso : spacesOnly l = true)
    (hadj : noAdjWS l = true) : collapseWS l = l :=
  (collapseAux_eq_self hso hadj).1

/-! ### Collapse + strip always produce a normal form -/

theorem collapseAux_spacesOnly : ∀ (l : List Char) (b : Bool),
    spacesOnly (collapseAux l b) = true := by
  intro l
  induction l with
  | nil => intro b; rfl
  | cons c rest ih =>
      intro b
      cases hws : isSpaceChar c with
      | true =>
          cases b with
          | true => simpa [collapseAux, hws] using ih true
          | false =>
              simp only [collapseAux, hws, if_true]
              refine List.all_eq_true.mpr fun x hx => ?_
              rcases List.mem_cons.mp hx with rfl | hx
              · simp
              · exact (List.all_eq_true.mp (ih true)) x hx
      | false =>
          simp only [collapseAux, hws, Bool.false_eq_true, if_false]
          refine List.all_eq_true.mpr fun x hx => ?_
          rcases List.mem_cons.mp hx with rfl | hx
          · simp [hws]
          · exact (List.all_eq_true.mp (ih false)) x hx

theorem headNotWS_collapseAux_true : ∀ (l : List Char),
    headNotWS (collapseAux l true) = true := by
  intro l
  induction l with
  | nil => rfl
  | cons c rest ih =>
      cases hws : isSpaceChar c with
      | true => simpa [collapseAux, hws] using ih
      | false => simp [collapseAux, hws, headNotWS]

theorem collapseAux_noAdjWS : ∀ (l : List Char) (b : Bool),
    noAdjWS (collapseAux l b) = true := by
  intro l
  induction l with
  | nil => intro b; rfl
  | cons c rest ih =>
      intro b
      cases hws : isSpaceChar c with
      | true =>
          cases b with
          | true => simpa [collapseAux, hws] using ih true
          | false =>
              simp only [collapseAux, hws, if_true]
              exact noAdjWS_cons_of (ih true)
                (Or.inr (headNotWS_collapseAux_true rest))
      | false =>
          simp only [collapseAux, hws, Bool.false_eq_true, if_false]
          exact noAdjWS_cons_of (ih false) (Or.inl hws)

theorem headNotWS_collapseAux_false {l : List Char} (h : headNotWS l = true) :
    headNotWS (collapseAux l false) = true := by
  cases l with
  | nil => rfl
  | cons c rest =>
      have hc : isSpaceChar c = false := by simpa [headNotWS] using h
      simp [collapseAux, hc, headNotWS]

theorem collapseAux_lastNotWS : ∀ (l : List Char), l ≠ [] →
    lastNotWS l = true → ∀ b,
    collapseAux l b ≠ [] ∧ lastNotWS (collapseAux l b) = true := by
  intro l
  induction l with
  | nil => intro h; exact absurd rfl h
  | cons c rest ih =>
      intro _ hlast b
      by_cases hrne : rest = []
      · subst hrne
        have hc : isSpaceChar c = false := by
          simpa [lastNotWS_singleton] using hlast
        constructor
        · simp [collapseAux, hc]
        · simp [collapseAux, hc, lastNotWS_singleton]
      · have hlast' : lastNotWS rest = true := by
          rwa [lastNotWS_cons hrne] at hlast
        obtain ⟨hne_t, hl_t⟩ := ih hrne hlast' true
        obtain ⟨hne_f, hl_f⟩ := ih hrne hlast' false
        cases hws : isSpaceChar c with
        | true =>
            cases b with
            | true =>
                constructor
                · simpa [collapseAux, hws] using hne_t
                · simpa [collapseAux, hws] using hl_t
            | false =>
                have heq : collapseAux (c :: rest) false =
                    ' ' :: collapseAux rest true := by
                  simp [collapseAux, hws]
                refine ⟨by rw [heq]; simp, ?_⟩
                rw [heq, lastNotWS_cons hne_t]
                exact hl_t
        | false =>
            have heq : collapseAux (c :: rest) b = c :: collapseAux rest false := by
              simp [collapseAux, hws]
            refine ⟨by rw [heq]; simp, ?_⟩
            rw [heq, lastNotWS_cons hne_f]
            exact hl_f

theorem headNotWS_stripList (l : List Char) :
    headNotWS (stripList l) = true := by
  unfold stripList
  cases hx : l.dropWhile isSpaceChar with
  | nil => rfl
  | cons c t =>
      have hc : isSpaceChar c = false := by
        have := headNotWS_dropWhile l
        rw [hx] at this
        simpa [headNotWS] using this
      rw [List.reverse_cons, List.dropWhile_append]
      cases hemp : (t.reverse.dropWhile isSpaceChar).isEmpty with
      | true =>
          simp only [if_true]
          rw [List.dropWhile_cons, if_neg (by simp [hc])]
          simp [headNotWS, hc]
      | false =>
          simp only [Bool.false_eq_true, if_false]
          simp [headNotWS, hc]

theorem lastNotWS_stripList (l : List Char) :
    lastNotWS (stripList l) = true := by
  unfold stripList lastNotWS
  rw [List.reverse_reverse]
  exact headNotWS_dropWhile _

theorem wsNormal_collapse_strip (l : List Char) :
    wsNormal (collapseWS (stripList l)) = true := by
  have hso := collapseAux_spacesOnly (stripList l) false
  have hadj := collapseAux_noAdjWS (stripList l) false
  have hhead := headNotWS_collapseAux_false (headNotWS_stripList l)
  have hlast : lastNotWS (collapseAux (stripList l) false) = true := by
    by_cases hs : stripList l = []
    · rw [hs]
      rfl
    · exact (collapseAux_lastNotWS (stripList l) hs (lastNotWS_stripList l) false).2
  simp only [wsNormal, Bool.and_eq_true]
  exact ⟨⟨⟨hso, hadj⟩, hhead⟩, hlast⟩

/-- The output of `normalize_text` is always in whitespace normal form. -/
theorem wsNormal_normalizeList (l : List Char) :
    wsNormal (normalizeList l) = true :=
  wsNormal_collapse_strip _

/-! ### The de-spacing scanner preserves whitespace normal form -/

/-- A replaced block (the match with its ASCII spaces removed) starts and ends
with an uppercase letter and has at least two characters. -/
theorem rsow_block_shape {l : List Char} {n : Nat} (hm : matchSpaced l = some n) :
    ∃ (a : Char) (Y : List Char) (u : Char),
      (l.take n).filter (fun x => decide (x ≠ ' ')) = a :: (Y ++ [u]) ∧
      isUpperAZ a = true ∧ isUpperAZ u = true := by
  obtain ⟨h3, hlen, ⟨a, r, he, ha⟩, hall, ⟨X, u, hXu, hu⟩, -⟩ :=
    matchSpaced_spec l n hm
  subst he
  match n, h3 with
  | n' + 1, h3 =>
      rw [List.take_succ_cons] at hXu ⊢
      cases X with
      | nil =>
          simp only [List.nil_append] at hXu
          have h2 : r.take n' = [] := by
            injection hXu with h1 h2
          have hlen2 : (r.take n').length = 0 := by rw [h2]; rfl
          rw [List.length_take] at hlen2
          simp only [List.length_cons] at hlen
          omega
      | cons x X' =>
          injection hXu with h1 h2
          subst h1
          simp only [List.append_eq] at h2
          refine ⟨a, X'.filter (fun x => decide (x ≠ ' ')), u, ?_, ha, hu⟩
          rw [List.filter_cons, if_pos (by simp [isUpperAZ_ne_space ha]), h2,
            List.filter_append]
          congr 1
          rw [List.filter_cons, if_pos (by simp [isUpperAZ_ne_space hu])]
          rfl

theorem mem_rsow_block_upper {l : List Char} {n : Nat}
    (hm : matchSpaced l = some n) (hso : spacesOnly l = true) :
    ∀ c ∈ (l.take n).filter (fun x => decide (x ≠ ' ')), isUpperAZ c = true := by
  intro c hc
  obtain ⟨hmem, hne⟩ := List.mem_filter.mp hc
  obtain ⟨-, -, -, hall, -, -⟩ := matchSpaced_spec l n hm
  rcases hall c hmem with h | h
  · exact h
  · have hcl : c ∈ l := (List.take_sublist n l).subset hmem
    have := spacesOnly_mem hso hcl h
    rw [this] at hne
    simp at hne

theorem rsowA_spacesOnly {l : List Char} {b : Bool} (h : spacesOnly l = true) :
    spacesOnly (rsowA l b) = true :=
  spacesOnly_of_subset h (rsowA_sublist l b).subset

theorem rsowA_headNotWS {l : List Char} {b : Bool} (h : headNotWS l = true) :
    headNotWS (rsowA l b) = true := by
  unfold headNotWS at *
  rw [rsowA_head?]
  exact h

theorem rsowA_lastNotWS : ∀ (l : List Char) (b : Bool), lastNotWS l = true →
    lastNotWS (rsowA l b) = true := by
  have H : ∀ (k : Nat) (l : List Char), l.length ≤ k → ∀ b, lastNotWS l = true →
      lastNotWS (rsowA l b) = true := by
    intro k
    induction k with
    | zero =>
        intro l hl b h
        obtain rfl := List.length_eq_zero.mp (Nat.le_zero.mp hl)
        rw [rsowA_nil]
        rfl
    | succ k ih =>
        intro l hl b h
        match l with
        | [] => rw [rsowA_nil]; rfl
        | c :: rest =>
            simp only [List.length_cons] at hl
            have hrest : rest.length ≤ k := by omega
            have copy : ∀ b', lastNotWS (c :: rsowA rest b') = true := by
              intro b'
              by_cases hrne : rest = []
              · subst hrne
                rw [rsowA_nil]
                exact h
              · have hTne : rsowA rest b' ≠ [] := by
                  simpa [rsowA_eq_nil_iff] using hrne
                rw [lastNotWS_cons hTne]
                exact ih rest hrest b' (by rwa [lastNotWS_cons hrne] at h)
            cases b with
            | false =>
                rw [rsowA_cons_false]
                exact copy _
            | true =>
                cases hm : matchSpaced (c :: rest) with
                | none =>
                    rw [rsowA_cons_true_none _ _ hm]
                    exact copy _
                | some n =>
                    rw [rsowA_cons_true_some _ _ _ hm]
                    obtain ⟨h3, hlen⟩ := matchSpaced_pos hm
                    obtain ⟨a, Y, u, hW, -, hu⟩ := rsow_block_shape hm
                    by_cases hD : (c :: rest).drop n = []
                    · rw [hD, rsowA_nil, List.append_nil, hW,
                        show a :: (Y ++ [u]) = (a :: Y) ++ [u] from rfl,
                        lastNotWS_concat]
                      simp [isUpperAZ_not_space hu]
                    · have hTne : rsowA ((c :: rest).drop n) false ≠ [] := by
                        simpa [rsowA_eq_nil_iff] using hD
                      rw [lastNotWS_append hTne]
                      refine ih _ ?_ false ?_
                      · simp only [List.length_drop, List.length_cons]
                        omega
                      · have hsplit := List.take_append_drop n (c :: rest)
                        rw [← hsplit, lastNotWS_append hD] at h
                        exact h
  intro l b
  exact H l.length l le_rfl b

theorem rsowA_noAdjWS : ∀ (l : List Char) (b : Bool), spacesOnly l = true →
    noAdjWS l = true → noAdjWS (rsowA l b) = true := by
  have H : ∀ (k : Nat) (l : List Char), l.length ≤ k → ∀ b,
      spacesOnly l = true → noAdjWS l = true → noAdjWS (rsowA l b) = true := by
    intro k
    induction k with
    | zero =>
        intro l hl b _ _
        obtain rfl := List.length_eq_zero.mp (Nat.le_zero.mp hl)
        rw [rsowA_nil]
        rfl
    | succ k ih =>
        intro l hl b hso hadj
        match l with
        | [] => rw [rsowA_nil]; rfl
        | c :: rest =>
            simp only [List.length_cons] at hl
            have hrest : rest.length ≤ k := by omega
            have copy : ∀ b', noAdjWS (c :: rsowA rest b') = true := by
              intro b'
              refine noAdjWS_cons_of
                (ih rest hrest b' (spacesOnly_tail hso) (noAdjWS_tail hadj)) ?_
              cases hws : isSpaceChar c with
              | false => exact Or.inl rfl
              | true => exact Or.inr (rsowA_headNotWS (noAdjWS_head hadj hws))
            cases b with
            | false =>
                rw [rsowA_cons_false]
                exact copy _
            | true =>
                cases hm : matchSpaced (c :: rest) with
                | none =>
                    rw [rsowA_cons_true_none _ _ hm]
                    exact copy _
                | some n =>
                    rw [rsowA_cons_true_some _ _ _ hm]
                    obtain ⟨h3, hlen⟩ := matchSpaced_pos hm
                    refine noAdjWS_append_left
                      (fun x hx => isUpperAZ_not_space
                        (mem_rsow_block_upper hm hso x hx)) ?_
                    refine ih _ ?_ false ?_ (noAdjWS_drop hadj n)
                    · simp only [List.length_drop, List.length_cons]
                      omega
                    · exact spacesOnly_of_subset hso
                        ((List.drop_sublist n (c :: rest)).subset)
  intro l b
  exact H l.length l le_rfl b

/-! ### The de-spacing scanner is idempotent on space-only inputs

On inputs whose whitespace characters are all ASCII spaces, one scanner pass
reaches a fixed point.  (On raw inputs this can fail only after the later
whitespace collapse turns other whitespace into spaces, which is exactly why
`normalize_text` itself is not idempotent.) -/

theorem matchSpaced_none_of_head {e : Char} {X : List Char}
    (he : isUpperAZ e = false) :
    matchSpaced (e :: X) = none ∧ headUB (e :: X) = false := by
  constructor
  · cases X with
    | nil => rfl
    | cons f X' => simp [matchSpaced, he]
  · cases X with
    | nil => simp [headUB, he]
    | cons f X' => simp [headUB, he]

theorem matchSpaced_none_of_second {c d : Char} {X : List Char}
    (hd : isSpaceChar d = false) : matchSpaced (c :: d :: X) = none := by
  simp [matchSpaced, hd]

theorem matchSpaced_none_inv {c d : Char} {r : List Char}
    (hc : isUpperAZ c = true) (hd : isSpaceChar d = true)
    (h : matchSpaced (c :: d :: r) = none) :
    matchSpaced r = none ∧ headUB r = false := by
  simp only [matchSpaced, hc, hd, Bool.and_self, if_true] at h
  cases hmr : matchSpaced r with
  | some m =>
      rw [hmr] at h
      simp at h
  | none =>
      rw [hmr] at h
      simp only [] at h
      cases hub : headUB r with
      | true =>
          rw [hub] at h
          simp at h
      | false => exact ⟨rfl, rfl⟩

theorem matchSpaced_none_cons (c d : Char) {r : List Char}
    (h1 : matchSpaced r = none) (h2 : headUB r = false) :
    matchSpaced (c :: d :: r) = none := by
  simp [matchSpaced, h1, h2]

/-- After a whole scanner pass starting at a non-matching position, the head
still cannot begin a match nor serve as a final `[A-Z]` boundary letter. -/
theorem rescanS : ∀ {r2 : List Char}, matchSpaced r2 = none → headUB r2 = false →
    matchSpaced (rsowA r2 true) = none ∧ headUB (rsowA r2 true) = false := by
  intro r2 hm2 hub2
  cases r2 with
  | nil => rw [rsowA_nil]; exact ⟨rfl, rfl⟩
  | cons e r3 =>
      rw [rsowA_cons_true_none _ _ hm2]
      cases he : isUpperAZ e with
      | false => exact matchSpaced_none_of_head he
      | true =>
          have hwse : isSpaceChar e = false := isUpperAZ_not_space he
          rw [hwse]
          cases r3 with
          | nil =>
              have : headUB [e] = isUpperAZ e := rfl
              rw [this, he] at hub2
              cases hub2
          | cons f r4 =>
              have hf : isSpaceChar f = false := by
                have heq : headUB (e :: f :: r4) = (isUpperAZ e && isSpaceChar f) := rfl
                rw [heq, he] at hub2
                simpa using hub2
              rw [rsowA_cons_false]
              exact ⟨matchSpaced_none_of_second hf, by simp [headUB, hf]⟩

/-- If no match starts at `c`, then no match starts at `c` after the tail has
been rewritten by a scanner pass. -/
theorem rescan_head_none {c : Char} {rest : List Char}
    (hm : matchSpaced (c :: rest) = none) :
    matchSpaced (c :: rsowA rest (isSpaceChar c)) = none := by
  cases hc : isUpperAZ c with
  | false => exact (matchSpaced_none_of_head hc).1
  | true =>
      have hwc : isSpaceChar c = false := isUpperAZ_not_space hc
      rw [hwc]
      cases rest with
      | nil => rw [rsowA_nil]; rfl
      | cons d rest2 =>
          rw [rsowA_cons_false]
          cases hd : isSpaceChar d with
          | false => exact matchSpaced_none_of_second hd
          | true =>
              obtain ⟨hm2, hub2⟩ := matchSpaced_none_inv hc hd hm
              obtain ⟨hS1, hS2⟩ := rescanS hm2 hub2
              exact matchSpaced_none_cons c d hS1 hS2

theorem rsowA_append_nonspace_false : ∀ (X t : List Char),
    (∀ c ∈ X, isSpaceChar c = false) →
    rsowA (X ++ t) false = X ++ rsowA t false := by
  intro X
  induction X with
  | nil => intro t _; rfl
  | cons x X' ih =>
      intro t hX
      rw [List.cons_append, rsowA_cons_false, hX x (List.mem_cons_self _ _),
        ih t fun c hc => hX c (List.mem_cons_of_mem _ hc)]
      rfl

/-- Scanning a block of at least two non-whitespace characters copies it
verbatim and leaves the scanner in the non-boundary state. -/
theorem rsowA_append_block (x₁ x₂ : Char) (X t : List Char) (b : Bool)
    (hX : ∀ c ∈ x₁ :: x₂ :: X, isSpaceChar c = false) :
    rsowA ((x₁ :: x₂ :: X) ++ t) b = (x₁ :: x₂ :: X) ++ rsowA t false := by
  have hx2 : isSpaceChar x₂ = false := hX x₂ (by simp)
  have htail : rsowA ((x₂ :: X) ++ t) false = (x₂ :: X) ++ rsowA t false :=
    rsowA_append_nonspace_false _ _ fun c hc => hX c (List.mem_cons_of_mem _ hc)
  have hnm : matchSpaced (x₁ :: ((x₂ :: X) ++ t)) = none :=
    matchSpaced_none_of_second hx2
  cases b with
  | false =>
      rw [List.cons_append, rsowA_cons_false, hX x₁ (List.mem_cons_self _ _),
        htail]
      rfl
  | true =>
      rw [List.cons_append, rsowA_cons_true_none _ _ hnm,
        hX x₁ (List.mem_cons_self _ _), htail]
      rfl

/-- One scanner pass reaches a fixed point when all whitespace characters of
the input are ASCII spaces. -/
theorem rsowA_idem : ∀ (l : List Char) (b : Bool), spacesOnly l = true →
    rsowA (rsowA l b) b = rsowA l b := by
  have H : ∀ (k : Nat) (l : List Char), l.length ≤ k → ∀ b, spacesOnly l = true →
      rsowA (rsowA l b) b = rsowA l b := by
    intro k
    induction k with
    | zero =>
        intro l hl b _
        obtain rfl := List.length_eq_zero.mp (Nat.le_zero.mp hl)
        rw [rsowA_nil, rsowA_nil]
    | succ k ih =>
        intro l hl b hso
        match l with
        | [] => rw [rsowA_nil, rsowA_nil]
        | c :: rest =>
            simp only [List.length_cons] at hl
            have hrest : rest.length ≤ k := by omega
            cases b with
            | false =>
                rw [rsowA_cons_false, rsowA_cons_false,
                  ih rest hrest _ (spacesOnly_tail hso)]
            | true =>
                cases hm : matchSpaced (c :: rest) with
                | none =>
                    rw [rsowA_cons_true_none _ _ hm,
                      rsowA_cons_true_none _ _ (rescan_head_none hm),
                      ih rest hrest _ (spacesOnly_tail hso)]
                | some n =>
                    rw [rsowA_cons_true_some _ _ _ hm]
                    obtain ⟨h3, hlen⟩ := matchSpaced_pos hm
                    obtain ⟨a, Y, u, hW, ha, hu⟩ := rsow_block_shape hm
                    have hWup := mem_rsow_block_upper hm hso
                    obtain ⟨x₂, X₂, hYu⟩ : ∃ x₂ X₂, Y ++ [u] = x₂ :: X₂ := by
                      cases Y with
                      | nil => exact ⟨u, [], rfl⟩
                      | cons y Y' => exact ⟨y, Y' ++ [u], rfl⟩
                    have hWshape : ((c :: rest).take n).filter
                        (fun x => decide (x ≠ ' ')) = a :: x₂ :: X₂ := by
                      rw [hW, hYu]
                    have hXns : ∀ x ∈ a :: x₂ :: X₂, isSpaceChar x = false := by
                      intro x hx
                      refine isUpperAZ_not_space (hWup x ?_)
                      rw [hWshape]
                      exact hx
                    rw [hWshape]
                    by_cases hD : (c :: rest).drop n = []
                    · rw [hD, rsowA_nil, List.append_nil,
                        ← List.append_nil (a :: x₂ :: X₂)]
                      rw [rsowA_append_block a x₂ X₂ [] true hXns, rsowA_nil]
                    · obtain ⟨d, r, hDdr⟩ : ∃ d r, (c :: rest).drop n = d :: r := by
                        cases hDD : (c :: rest).drop n with
                        | nil => exact absurd hDD hD
                        | cons d r => exact ⟨d, r, rfl⟩
                      have hd : isSpaceChar d = true := by
                        obtain ⟨-, -, -, -, -, hdrop⟩ := matchSpaced_spec _ _ hm
                        rcases hdrop with h | ⟨d', r', hdr', hd'⟩
                        · exact absurd h hD
                        · rw [hDdr] at hdr'
                          injection hdr' with h1 h2
                          rwa [h1]
                      have hr_len : r.length ≤ k := by
                        have : ((c :: rest).drop n).length = rest.length + 1 - n := by
                          simp [List.length_drop]
                        rw [hDdr] at this
                        simp only [List.length_cons] at this
                        omega
                      have hr_so : spacesOnly r = true := by
                        refine spacesOnly_of_subset hso ?_
                        intro x hx
                        have hxd : x ∈ (c :: rest).drop n := by
                          rw [hDdr]
                          exact List.mem_cons_of_mem _ hx
                        exact (List.drop_sublist n (c :: rest)).subset hxd
                      rw [hDdr, rsowA_cons_false, hd,
                        rsowA_append_block a x₂ X₂ _ true hXns,
                        rsowA_cons_false, hd,
                        ih r hr_len true hr_so]
  intro l b
  exact H l.length l le_rfl b

/-! ### Idempotence of `normalize_text` on whitespace-normal inputs -/

theorem normalizeList_of_wsNormal {l : List Char} (h : wsNormal l = true) :
    normalizeList l = rsowA l true := by
  obtain ⟨⟨⟨hso, hadj⟩, hhead⟩, hlast⟩ :
      ((spacesOnly l = true ∧ noAdjWS l = true) ∧ headNotWS l = true) ∧
        lastNotWS l = true := by
    simpa only [wsNormal, Bool.and_eq_true] using h
  unfold normalizeList remove_spaced_out_words
  rw [stripList_eq_self (rsowA_headNotWS hhead) (rsowA_lastNotWS l true hlast),
    collapseWS_eq_self (rsowA_spacesOnly hso) (rsowA_noAdjWS l true hso hadj)]

theorem normalizeList_idem_of_wsNormal {l : List Char} (h : wsNormal l = true) :
    normalizeList (normalizeList l) = normalizeList l := by
  obtain ⟨⟨⟨hso, hadj⟩, hhead⟩, hlast⟩ :
      ((spacesOnly l = true ∧ noAdjWS l = true) ∧ headNotWS l = true) ∧
        lastNotWS l = true := by
    simpa only [wsNormal, Bool.and_eq_true] using h
  have hz : wsNormal (rsowA l true) = true := by
    simp only [wsNormal, Bool.and_eq_true]
    exact ⟨⟨⟨rsowA_spacesOnly hso, rsowA_noAdjWS l true hso hadj⟩,
      rsowA_headNotWS hhead⟩, rsowA_lastNotWS l true hlast⟩
  rw [normalizeList_of_wsNormal h, normalizeList_of_wsNormal hz]
  exact rsowA_idem l true hso

/-- Applied twice, `normalize_text` reaches a fixed point (its output is
whitespace-normal, and on whitespace-normal inputs it is idempotent). -/
theorem normalizeList_triple (l : List Char) :
    normalizeList (normalizeList (normalizeList l)) =
      normalizeList (normalizeList l) :=
  normalizeList_idem_of_wsNormal (wsNormal_normalizeList l)

/-- `extract_candidate_name` returns the empty string exactly when every line
of its input is blank. -/
theorem extractCandidateNameL_eq_nil_iff (l : List Char) :
    extractCandidateNameL l = [] ↔
      ∀ line ∈ splitlines l, stripList line = [] := by
  unfold extractCandidateNameL
  cases hf : ((splitlines l).map stripList).find? (fun x => !x.isEmpty) with
  | none =>
      simp only [Option.getD_none]
      constructor
      · intro _ line hline
        have := List.find?_eq_none.mp hf (stripList line)
          (List.mem_map_of_mem _ hline)
        simpa using this
      · intro _
        trivial
  | some x =>
      simp only [Option.getD_some]
      have hxne : x ≠ [] := by
        have h' := List.find?_some hf
        intro he
        rw [he] at h'
        simp at h'
      have hxmem : x ∈ (splitlines l).map stripList := List.mem_of_find?_eq_some hf
      obtain ⟨line, hline, hxline⟩ := List.mem_map.mp hxmem
      constructor
      · intro h
        exact absurd h hxne
      · intro h
        exact absurd (hxline.symm.trans (h line hline)) hxne

theorem length_insertDesc {α : Type} (p : α × ℚ) :
    ∀ l : List (α × ℚ), (insertDesc p l).length = l.length + 1 := by
  intro l
  induction l with
  | nil => rfl
  | cons q rest ih =>
      by_cases h : q.2 ≤ p.2
      · simp [insertDesc, h]
      · simp [insertDesc, h, ih]

theorem length_sortDesc {α : Type} : ∀ l : List (α × ℚ), (sortDesc l).length = l.length := by
  intro l
  induction l with
  | nil => rfl
  | cons p rest ih => simp [sortDesc, length_insertDesc, ih]

theorem sortedDescB_cons {α : Type} {x : α × ℚ} {t : List (α × ℚ)}
    (ht : sortedDescB t = true)
    (hx : ∀ y, t.head? = some y → y.2 ≤ x.2) : sortedDescB (x :: t) = true := by
  cases t with
  | nil => rfl
  | cons y t' =>
      simp only [sortedDescB, Bool.and_eq_true, decide_eq_true_eq]
      exact ⟨hx y rfl, ht⟩

theorem sortedDescB_cons_inv {α : Type} {x : α × ℚ} {t : List (α × ℚ)}
    (h : sortedDescB (x :: t) = true) :
    sortedDescB t = true ∧ ∀ y, t.head? = some y → y.2 ≤ x.2 := by
  cases t with
  | nil => exact ⟨rfl, by intro y hy; cases hy⟩
  | cons y t' =>
      simp only [sortedDescB, Bool.and_eq_true, decide_eq_true_eq] at h
      refine ⟨h.2, ?_⟩
      intro z hz
      cases hz
      exact h.1

theorem head?_insertDesc {α : Type} (p : α × ℚ) (l : List (α × ℚ)) :
    ∀ y, (insertDesc p l).head? = some y → y = p ∨ l.head? = some y := by
  intro y hy
  cases l with
  | nil =>
      simp only [insertDesc, List.head?_cons, Option.some.injEq] at hy
      exact Or.inl hy.symm
  | cons q rest =>
      by_cases h : q.2 ≤ p.2
      · simp only [insertDesc, if_pos h, List.head?_cons, Option.some.injEq] at hy
        exact Or.inl hy.symm
      · simp only [insertDesc, if_neg h, List.head?_cons, Option.some.injEq] at hy
        refine Or.inr ?_
        rw [List.head?_cons, hy]

theorem sortedDescB_insertDesc {α : Type} (p : α × ℚ) :
    ∀ l : List (α × ℚ), sortedDescB l = true →
      sortedDescB (insertDesc p l) = true := by
  intro l
  induction l with
  | nil => intro _; rfl
  | cons q rest ih =>
      intro h
      obtain ⟨hrest, hqr⟩ := sortedDescB_cons_inv h
      by_cases hqp : q.2 ≤ p.2
      · show sortedDescB (if q.2 ≤ p.2 then p :: q :: rest else _) = true
        rw [if_pos hqp]
        exact sortedDescB_cons h (by intro y hy; cases hy; exact hqp)
      · show sortedDescB (if q.2 ≤ p.2 then _ else q :: insertDesc p rest) = true
        rw [if_neg hqp]
        refine sortedDescB_cons (ih hrest) ?_
        intro y hy
        rcases head?_insertDesc p rest y hy with rfl | hy'
        · exact le_of_not_le hqp
        · exact hqr y hy'

theorem sortedDescB_sortDesc {α : Type} : ∀ l : List (α × ℚ),
    sortedDescB (sortDesc l) = true := by
  intro l
  induction l with
  | nil => rfl
  | cons p rest ih => exact sortedDescB_insertDesc p _ ih

theorem filter_score_insertDesc {α : Type} (p : α × ℚ) (v : ℚ) :
    ∀ l : List (α × ℚ),
      (insertDesc p l).filter (fun q => decide (q.2 = v)) =
        if p.2 = v then p :: l.filter (fun q => decide (q.2 = v))
        else l.filter (fun q => decide (q.2 = v)) := by
  intro l
  induction l with
  | nil => by_cases hv : p.2 = v <;> simp [insertDesc, hv]
  | cons q rest ih =>
      by_cases hqp : q.2 ≤ p.2
      · simp only [insertDesc, if_pos hqp]
        by_cases hv : p.2 = v <;> simp [hv]
      · simp only [insertDesc, if_neg hqp, List.filter_cons, ih]
        by_cases hqv : q.2 = v <;> by_cases hv : p.2 = v
        · exact absurd (le_of_eq (hqv.trans hv.symm)) hqp
        · simp [hqv, hv]
        · simp [hqv, hv]
        · simp [hqv, hv]

/-- Stability on ties: for every score value, the entries carrying that score
appear in the output in their input order. -/
theorem filter_score_sortDesc {α : Type} (v : ℚ) : ∀ l : List (α × ℚ),
    (sortDesc l).filter (fun q => decide (q.2 = v)) =
      l.filter (fun q => decide (q.2 = v)) := by
  intro l
  induction l with
  | nil => rfl
  | cons p rest ih =>
      show (insertDesc p (sortDesc rest)).filter _ = _
      rw [filter_score_insertDesc, List.filter_cons, ih]
      by_cases hv : p.2 = v <;> simp [hv]

/-! ### Normalization never touches non-whitespace characters -/

theorem filter_nonspace_dropWhile (l : List Char) :
    (l.dropWhile isSpaceChar).filter (fun c => !isSpaceChar c) =
      l.filter (fun c => !isSpaceChar c) := by
  induction l with
  | nil => rfl
  | cons c rest ih =>
      rw [List.dropWhile_cons]
      cases hws : isSpaceChar c with
      | true =>
          rw [if_pos (by simp [hws]), ih, List.filter_cons,
            if_neg (by simp [hws])]
      | false => rw [if_neg (by simp [hws])]

theorem filter_nonspace_stripList (l : List Char) :
    (stripList l).filter (fun c => !isSpaceChar c) =
      l.filter (fun c => !isSpaceChar c) := by
  unfold stripList
  rw [List.filter_reverse, filter_nonspace_dropWhile, List.filter_reverse,
    List.reverse_reverse, filter_nonspace_dropWhile]

theorem filter_nonspace_collapseAux : ∀ (l : List Char) (b : Bool),
    (collapseAux l b).filter (fun c => !isSpaceChar c) =
      l.filter (fun c => !isSpaceChar c) := by
  intro l
  induction l with
  | nil => intro b; rfl
  | cons c rest ih =>
      intro b
      cases hws : isSpaceChar c with
      | true =>
          cases b with
          | true =>
              simp only [collapseAux, hws, if_true]
              rw [ih true, List.filter_cons, if_neg (by simp [hws])]
          | false =>
              simp only [collapseAux, hws, if_true]
              rw [if_neg (by simp), List.filter_cons,
                if_neg (by simp [isSpaceChar_space]), ih true,
                List.filter_cons, if_neg (by simp [hws])]
      | false =>
          simp only [collapseAux, hws, Bool.false_eq_true, if_false]
          rw [List.filter_cons, List.filter_cons, if_pos (by simp [hws]),
            if_pos (by simp [hws]), ih false]

theorem normalizeList_filter_nonspace (l : List Char) :
    (normalizeList l).filter (fun c => !isSpaceChar c) =
      l.filter (fun c => !isSpaceChar c) := by
  unfold normalizeList collapseWS remove_spaced_out_words
  rw [filter_nonspace_collapseAux, filter_nonspace_stripList,
    rsowA_filter_nonspace]

theorem extractResumes_length_add (extractor : String → Except String String) :
    ∀ files : List String,
      (extractResumes extractor files).length + failedCount extractor files =
        files.length := by
  intro files
  induction files with
  | nil => rfl
  | cons p rest ih =>
      simp only [extractResumes, List.filterMap_cons, failedCount,
        List.filter_cons] at ih ⊢
      cases hp : extractor p with
      | ok t =>
          have h1 : extractFails extractor p = false := by simp [extractFails, hp]
          simp only [hp, h1, Bool.false_eq_true, if_false, List.length_cons]
          omega
      | error e =>
          have h1 : extractFails extractor p = true := by simp [extractFails, hp]
          simp only [hp, h1, if_true, List.length_cons]
          omega

theorem extractWarnings_length (extractor : String → Except String String) :
    ∀ files : List String,
      (extractWarnings extractor files).length = failedCount extractor files := by
  intro files
  induction files with
  | nil => rfl
  | cons p rest ih =>
      simp only [extractWarnings, List.filterMap_cons, failedCount,
        List.filter_cons] at ih ⊢
      cases hp : extractor p with
      | ok t =>
          have h1 : extractFails extractor p = false := by simp [extractFails, hp]
          simp only [hp, h1, Bool.false_eq_true, if_false, ih]
      | error e =>
          have h1 : extractFails extractor p = true := by simp [extractFails, hp]
          simp only [hp, h1, if_true, List.length_cons, ih]

theorem extractResumes_eq_nil_iff (extractor : String → Except String String)
    (files : List String) :
    extractResumes extractor files = [] ↔
      failedCount extractor files = files.length := by
  have h := extractResumes_length_add extractor files
  constructor
  · intro he
    rw [he] at h
    simpa using h
  · intro hk
    rw [hk] at h
    have : (extractResumes extractor files).length = 0 := by omega
    exact List.length_eq_zero.mp this

theorem rank_resumes_ranked_length (model : STModel) (resumes : List Resume)
    (job : String) :
    (rank_resumes model resumes job).ranked.length = resumes.length := by
  simp [rank_resumes, length_sortDesc, List.length_zip]

/-- Unfolding of the worker in the pre-processed-data branch. -/
theorem worker_preloaded (modelSaved : Bool) (model : STModel)
    {preloaded : List Resume} (h : preloaded ≠ []) (files : List String)
    (extractor : String → Except String String) (role description : String) :
    process_resumes_worker modelSaved model preloaded files extractor
      role description =
    { events := (load_model modelSaved).events ++
        [((0.5 : ℚ), "Using pre-processed resume data...")] ++
        ((rank_resumes model preloaded
          ("Job Role: " ++ role ++ "\n\n" ++ description)).events.map
            fun e => (0.5 + e.1 * 0.5, e.2))
      warnings := []
      resumesUsed := preloaded
      outcome := Outcome.success (rank_resumes model preloaded
        ("Job Role: " ++ role ++ "\n\n" ++ description)).ranked } := by
  simp only [process_resumes_worker, ne_eq, h, not_false_eq_true, if_true,
    if_neg h]
  rfl

/-- Unfolding of the worker when every supplied file fails extraction (or no
file was supplied): the `ValueError` is raised and routed to the failure
sink. -/
theorem worker_failure (modelSaved : Bool) (model : STModel)
    (files : List String) {extractor : String → Except String String}
    (h : extractResumes extractor files = []) (role description : String) :
    process_resumes_worker modelSaved model [] files extractor
      role description =
    { events := (load_model modelSaved).events ++ extractionEvents files
      warnings := extractWarnings extractor files
      resumesUsed := []
      outcome := Outcome.failure "No valid resumes could be processed." } := by
  simp only [process_resumes_worker, ne_eq, not_true_eq_false, if_false,
    if_pos h]

/-- Unfolding of the worker in the extraction branch when at least one file
survives. -/
theorem worker_success (modelSaved : Bool) (model : STModel)
    (files : List String) {extractor : String → Except String String}
    (h : extractResumes extractor files ≠ []) (role description : String) :
    process_resumes_worker modelSaved model [] files extractor
      role description =
    { events := (load_model modelSaved).events ++ extractionEvents files ++
        ((rank_resumes model (extractResumes extractor files)
          ("Job Role: " ++ role ++ "\n\n" ++ description)).events.map
            fun e => (0.5 + e.1 * 0.5, e.2))
      warnings := extractWarnings extractor files
      resumesUsed := extractResumes extractor files
      outcome := Outcome.success (rank_resumes model
        (extractResumes extractor files)
        ("Job Role: " ++ role ++ "\n\n" ++ description)).ranked } := by
  simp only [process_resumes_worker, ne_eq, not_true_eq_false, if_false,
    if_neg h]

/-! ### Per-phase monotonicity of progress -/

theorem nonDecreasing_cons {a : ℚ} {t : List ℚ} (ht : nonDecreasing t = true)
    (ha : ∀ y, t.head? = some y → a ≤ y) : nonDecreasing (a :: t) = true := by
  cases t with
  | nil => rfl
  | cons b t' =>
      simp only [nonDecreasing, Bool.and_eq_true, decide_eq_true_eq]
      exact ⟨ha b rfl, ht⟩

theorem nonDecreasing_load (modelSaved : Bool) :
    nonDecreasing ((load_model modelSaved).events.map Prod.fst) = true := by
  cases modelSaved with
  | true => norm_num [load_model, nonDecreasing]
  | false => norm_num [load_model, nonDecreasing]

theorem nonDecreasing_go (n : Nat) : ∀ (files : List String) (i : Nat),
    nonDecreasing ((extractionEventsGo n i files).map Prod.fst) = true := by
  intro files
  induction files with
  | nil => intro i; rfl
  | cons p rest ih =>
      intro i
      simp only [extractionEventsGo, List.map_cons]
      refine nonDecreasing_cons (ih (i + 1)) ?_
      intro y hy
      cases rest with
      | nil => simp [extractionEventsGo] at hy
      | cons q rest' =>
          simp only [extractionEventsGo, List.map_cons, List.head?_cons,
            Option.some.injEq] at hy
          subst hy
          apply mul_le_mul_of_nonneg_right ?_ (by norm_num : (0:ℚ) ≤ 0.5)
          rw [div_eq_mul_inv, div_eq_mul_inv]
          apply mul_le_mul_of_nonneg_right ?_ (inv_nonneg.mpr (Nat.cast_nonneg n))
          push_cast
          linarith

theorem nonDecreasing_extractionEvents (files : List String) :
    nonDecreasing ((extractionEvents files).map Prod.fst) = true := by
  simp only [extractionEvents, List.map_cons]
  refine nonDecreasing_cons (nonDecreasing_go files.length files 0) ?_
  intro y hy
  cases files with
  | nil => simp [extractionEventsGo] at hy
  | cons p rest =>
      simp only [extractionEventsGo, List.map_cons, List.head?_cons,
        Option.some.injEq] at hy
      subst hy
      positivity

theorem go_fst_le_half (n : Nat) : ∀ (files : List String) (i : Nat),
    i + files.length ≤ n →
    ∀ q ∈ (extractionEventsGo n i files).map Prod.fst, q ≤ 1/2 := by
  intro files
  induction files with
  | nil =>
      intro i _ q hq
      simp [extractionEventsGo] at hq
  | cons p rest ih =>
      intro i hin q hq
      simp only [List.length_cons] at hin
      simp only [extractionEventsGo, List.map_cons, List.mem_cons] at hq
      rcases hq with rfl | hq
      · have hn : 0 < n := by omega
        have hn' : (0:ℚ) < n := by exact_mod_cast hn
        have hfrac : ((i : ℚ) + 1) / n ≤ 1 := by
          rw [div_le_one hn']
          exact_mod_cast Nat.succ_le_of_lt (by omega)
        calc ((i : ℚ) + 1) / n * 0.5 ≤ 1 * 0.5 :=
              mul_le_mul_of_nonneg_right hfrac (by norm_num)
          _ = 1/2 := by norm_num
      · exact ih (i + 1) (by omega) q hq

theorem extractionEvents_fst_le_half (files : List String) :
    ∀ q ∈ (extractionEvents files).map Prod.fst, q ≤ 1/2 := by
  intro q hq
  simp only [extractionEvents, List.map_cons, List.mem_cons] at hq
  rcases hq with rfl | hq
  · norm_num
  · exact go_fst_le_half files.length files 0 (by omega) q hq

theorem nonDecreasing_rank_scaled (model : STModel) (resumes : List Resume)
    (job : String) :
    nonDecreasing (((rank_resumes model resumes job).events.map
      fun e => ((0.5 : ℚ) + e.1 * 0.5, e.2)).map Prod.fst) = true := by
  norm_num [rank_resumes, nonDecreasing]

theorem rank_scaled_getLast (model : STModel) (resumes : List Resume)
    (job : String) :
    (((rank_resumes model resumes job).events.map
      fun e => ((0.5 : ℚ) + e.1 * 0.5, e.2)).map Prod.fst).getLast? = some 1 := by
  norm_num [rank_resumes]

/-! ## Shared helper lemmas for the claims -/

theorem worker_resumesUsed (modelSaved : Bool) (model : STModel)
    (files : List String) (extractor : String → Except String String)
    (role description : String) :
    (process_resumes_worker modelSaved model [] files extractor
      role description).resumesUsed = extractResumes extractor files := by
  by_cases h : extractResumes extractor files = []
  · rw [worker_failure modelSaved model files h role description, h]
  · rw [worker_success modelSaved model files h role description]

theorem mem_extractResumes {r : Resume} {files : List String}
    {extractor : String → Except String String}
    (h : r ∈ extractResumes extractor files) :
    ∃ p t, p ∈ files ∧ extractor p = Except.ok t ∧ r = buildResume p t := by
  obtain ⟨p, hp, hf⟩ := List.mem_filterMap.mp h
  cases he : extractor p with
  | ok t =>
      rw [he] at hf
      simp only [Option.some.injEq] at hf
      exact ⟨p, t, hp, he, hf.symm⟩
  | error e =>
      rw [he] at hf
      cases hf

theorem buildResume_name_ne (path raw : String) :
    (buildResume path raw).candidate_name ≠ "" := by
  unfold buildResume
  by_cases h : extract_candidate_name raw = ""
  · simp only [h, if_pos rfl]
    decide
  · simp only [if_neg h]
    exact h

theorem buildResume_name_unknown (path raw : String)
    (h : extract_candidate_name raw = "") :
    (buildResume path raw).candidate_name = "Unknown Name" := by
  unfold buildResume
  simp [h]

/-! ## The claims -/

/-- C1, counterexample: in a concrete successful run (cached model, one file
that extracts fine), the progress fractions delivered to the sink are NOT
non-decreasing — `load_model` sweeps `0 … 1` on its own, and the extraction
phase then restarts at `0`. -/
theorem C1_counterexample :
    nonDecreasing
      ((process_resumes_worker true M0 [] ["r.pdf"] exOkText
        "R" "D").events.map Prod.fst) = false := by
  norm_num [process_resumes_worker, load_model, extractionEvents,
    extractionEventsGo, extractResumes, exOkText, rank_resumes, nonDecreasing,
    List.filterMap_cons]

/-- C1, amended: the progress stream of one worker run is a concatenation of
three phase segments (model provisioning; extraction or the pre-processed-data
notice; scaled ranking), each of which is individually non-decreasing; on
success the last delivered fraction is exactly `1`, and on failure the run
ends via the failure sink with every delivered fraction — in particular the
last one — strictly below `1`.  The combined stream is not monotone across
phase boundaries (see the counterexample). -/
theorem C1_amended_progress_phases (modelSaved : Bool) (model : STModel)
    (preloaded : List Resume) (files : List String)
    (extractor : String → Except String String) (role description : String) :
    (∃ e₁ e₂ e₃,
      (process_resumes_worker modelSaved model preloaded files extractor
        role description).events = e₁ ++ e₂ ++ e₃ ∧
      nonDecreasing (e₁.map Prod.fst) = true ∧
      nonDecreasing (e₂.map Prod.fst) = true ∧
      nonDecreasing (e₃.map Prod.fst) = true) ∧
    (∀ ranked,
      (process_resumes_worker modelSaved model preloaded files extractor
        role description).outcome = Outcome.success ranked →
      (((process_resumes_worker modelSaved model preloaded files extractor
        role description).events.map Prod.fst).getLast? = some 1)) ∧
    (∀ msg,
      (process_resumes_worker modelSaved model preloaded files extractor
        role description).outcome = Outcome.failure msg →
      ∀ q, ((process_resumes_worker modelSaved model preloaded files extractor
        role description).events.map Prod.fst).getLast? = some q → q < 1) := by
  by_cases hp : preloaded = []
  · subst hp
    by_cases hr : extractResumes extractor files = []
    · rw [worker_failure modelSaved model files hr role description]
      refine ⟨⟨(load_model modelSaved).events, extractionEvents files, [],
        by simp, nonDecreasing_load modelSaved,
        nonDecreasing_extractionEvents files, rfl⟩, ?_, ?_⟩
      · intro ranked hcon
        cases hcon
      · intro msg _ q hq
        rw [List.map_append] at hq
        have hne : (extractionEvents files).map Prod.fst ≠ [] := by
          simp [extractionEvents]
        rw [List.getLast?_append_of_ne_nil _ hne] at hq
        have hmem : q ∈ (extractionEvents files).map Prod.fst :=
          List.mem_of_mem_getLast? hq
        have := extractionEvents_fst_le_half files q hmem
        linarith
    · rw [worker_success modelSaved model files hr role description]
      refine ⟨⟨(load_model modelSaved).events, extractionEvents files, _,
        rfl, nonDecreasing_load modelSaved,
        nonDecreasing_extractionEvents files,
        nonDecreasing_rank_scaled model _ _⟩, ?_, ?_⟩
      · intro ranked _
        rw [List.map_append]
        have hne : ((rank_resumes model (extractResumes extractor files)
            ("Job Role: " ++ role ++ "\n\n" ++ description)).events.map
              (fun e => ((0.5 : ℚ) + e.1 * 0.5, e.2))).map Prod.fst ≠ [] := by
          simp [rank_resumes]
        rw [List.getLast?_append_of_ne_nil _ hne]
        exact rank_scaled_getLast model _ _
      · intro msg hcon
        cases hcon
  · rw [worker_preloaded modelSaved model hp files extractor role description]
    refine ⟨⟨(load_model modelSaved).events,
      [((0.5 : ℚ), "Using pre-processed resume data...")], _,
      rfl, nonDecreasing_load modelSaved, rfl,
      nonDecreasing_rank_scaled model _ _⟩, ?_, ?_⟩
    · intro ranked _
      rw [List.map_append]
      have hne : ((rank_resumes model preloaded
          ("Job Role: " ++ role ++ "\n\n" ++ description)).events.map
            (fun e => ((0.5 : ℚ) + e.1 * 0.5, e.2))).map Prod.fst ≠ [] := by
        simp [rank_resumes]
      rw [List.getLast?_append_of_ne_nil _ hne]
      exact rank_scaled_getLast model _ _
    · intro msg hcon
      cases hcon

/-- C1, witness: the amended theorem applied to one successful run (last
fraction is exactly `1`) and one run in which the only file fails extraction
(the last delivered fraction, `1/2`, is below `1`). -/
theorem C1_witness :
    (((process_resumes_worker true M0 [] ["r.pdf"] exOkText "R" "D").events.map
      Prod.fst).getLast? = some 1) ∧
    ((1/2 : ℚ) < 1) := by
  constructor
  · exact (C1_amended_progress_phases true M0 [] ["r.pdf"] exOkText "R" "D").2.1
      ((rank_resumes M0 (extractResumes exOkText ["r.pdf"])
        ("Job Role: " ++ "R" ++ "\n\n" ++ "D")).ranked) rfl
  · refine (C1_amended_progress_phases true M0 [] ["a.pdf"] exBoom "R" "D").2.2
      "No valid resumes could be processed." (by decide) (1/2) ?_
    norm_num [process_resumes_worker, load_model, extractionEvents,
      extractionEventsGo, extractResumes, exBoom, List.filterMap_cons]

/-- C2, counterexample: `rank_resumes` on the empty document list does invoke
the model's encode operation — its recorded call trace is non-empty (there is
no empty-input guard in the code). -/
theorem C2_counterexample : (rank_resumes M0 [] "job").encodeCalls ≠ [] := by
  decide

/-- C2, amended: scoring an empty document list returns an empty ranking, but
the model's encode operation is invoked all the same — once on the job
description and once on the empty batch of resume texts. -/
theorem C2_amended_empty_rank (model : STModel) (job : String) :
    (rank_resumes model [] job).ranked = [] ∧
    (rank_resumes model [] job).encodeCalls =
      [EncodeCall.single job, EncodeCall.batch []] :=
  ⟨rfl, rfl⟩

/-- C3, counterexample: normalization is not idempotent.  On `"A  B"` the
de-spacing pass does not fire (the letters are separated by two spaces), the
whitespace collapse then produces `"A B"`, and a second `normalize_text`
de-spaces that to `"AB"`. -/
theorem C3_counterexample :
    normalize_text (normalize_text "A  B") ≠ normalize_text "A  B" := by
  decide

/-- C3, amended: `normalize_text` is idempotent from the second application
onwards — equivalently, it is idempotent on inputs in whitespace normal form
(the only whitespace characters are single interior ASCII spaces), which is
exactly the shape of its own output.  It is not idempotent in general (see the
counterexample). -/
theorem C3_amended_normalize_idem :
    (∀ s : String, normalize_text (normalize_text (normalize_text s)) =
      normalize_text (normalize_text s)) ∧
    (∀ s : String, wsNormal s.data = true →
      normalize_text (normalize_text s) = normalize_text s) := by
  constructor
  · intro s
    exact congrArg String.mk (normalizeList_triple s.data)
  · intro s hs
    exact congrArg String.mk (normalizeList_idem_of_wsNormal hs)

/-- C3, witness: the amended theorem at the whitespace-normal string
`"J OHN"`. -/
theorem C3_witness :
    wsNormal (String.data "J OHN") = true ∧
    normalize_text (normalize_text "J OHN") = normalize_text "J OHN" :=
  ⟨by decide, C3_amended_normalize_idem.2 "J OHN" (by decide)⟩

/-- C4: per-document extraction failures are isolated.  If `k` of `n`
supplied files fail extraction with `0 < k < n`, the run succeeds, the final
ranking has exactly `n - k` entries, and the `k` failures are reported
separately (one printed warning each); if all `n` files fail, the run ends at
the failure sink with the "No valid resumes could be processed." error and no
success callback is delivered. -/
theorem C4_extraction_isolation (modelSaved : Bool) (model : STModel)
    (files : List String) (extractor : String → Except String String)
    (role description : String) :
    (0 < failedCount extractor files → failedCount extractor files < files.length →
      ∃ ranked,
        (process_resumes_worker modelSaved model [] files extractor
          role description).outcome = Outcome.success ranked ∧
        ranked.length = files.length - failedCount extractor files ∧
        (process_resumes_worker modelSaved model [] files extractor
          role description).warnings.length = failedCount extractor files) ∧
    (failedCount extractor files = files.length → 0 < files.length →
      (process_resumes_worker modelSaved model [] files extractor
        role description).outcome =
          Outcome.failure "No valid resumes could be processed.") := by
  constructor
  · intro h0 hlt
    have hne : extractResumes extractor files ≠ [] := by
      intro he
      rw [extractResumes_eq_nil_iff] at he
      omega
    rw [worker_success modelSaved model files hne role description]
    refine ⟨_, rfl, ?_, ?_⟩
    · rw [rank_resumes_ranked_length]
      have := extractResumes_length_add extractor files
      omega
    · exact extractWarnings_length extractor files
  · intro hk _
    have he : extractResumes extractor files = [] :=
      (extractResumes_eq_nil_iff extractor files).mpr hk
    rw [worker_failure modelSaved model files he role description]

/-- C4, witness: a run with 5 files of which exactly 2 fail yields a ranking
of 3 entries and 2 warnings; a run whose single file fails ends at the
failure sink. -/
theorem C4_witness :
    (∃ ranked,
      (process_resumes_worker true M0 []
        ["a.pdf", "b.pdf", "c.pdf", "d.pdf", "e.pdf"] exMixed
        "R" "D").outcome = Outcome.success ranked ∧
      ranked.length = 3 ∧
      (process_resumes_worker true M0 []
        ["a.pdf", "b.pdf", "c.pdf", "d.pdf", "e.pdf"] exMixed
        "R" "D").warnings.length = 2) ∧
    (process_resumes_worker true M0 [] ["a.pdf"] exBoom "R" "D").outcome =
      Outcome.failure "No valid resumes could be processed." := by
  constructor
  · obtain ⟨ranked, hout, hlen, hwarn⟩ :=
      (C4_extraction_isolation true M0
        ["a.pdf", "b.pdf", "c.pdf", "d.pdf", "e.pdf"] exMixed "R" "D").1
        (by decide) (by decide)
    refine ⟨ranked, hout, ?_, ?_⟩
    · rw [hlen]
      decide
    · rw [hwarn]
      decide
  · exact (C4_extraction_isolation true M0 ["a.pdf"] exBoom "R" "D").2
      (by decide) (by decide)

/-- C5, counterexample: after a first provisioning has saved the model, a
subsequent `load_model` call re-reports fractional progress (for instance the
fraction `1/10`, strictly between `0` and `1`) instead of returning a cached
handle silently or reporting completion immediately — there is no
process-wide handle cache in the code. -/
theorem C5_counterexample :
    (1/10 : ℚ) ∈ ((load_model (load_model false).modelSaved).events.map
      Prod.fst) ∧ (0 : ℚ) < 1/10 ∧ (1/10 : ℚ) < 1 := by
  refine ⟨?_, by norm_num, by norm_num⟩
  norm_num [load_model]

/-- C5, amended: after the first successful provisioning, a subsequent call
with the same name and cache directory does not re-download (the on-disk
existence check routes it to the load-from-disk branch), but it re-loads the
model from disk and re-reports the full fractional progress sequence
`0, 1/10, …, 9/10, 1, 1`; no process-wide handle cache exists. -/
theorem C5_amended_load_model :
    (load_model false).source = LoadSource.downloaded ∧
    (load_model false).modelSaved = true ∧
    (load_model (load_model false).modelSaved).source = LoadSource.fromDisk ∧
    ((load_model (load_model false).modelSaved).events.map Prod.fst) =
      [0, 1/10, 2/10, 3/10, 4/10, 5/10, 6/10, 7/10, 8/10, 9/10, 1, 1] := by
  refine ⟨rfl, rfl, rfl, ?_⟩
  norm_num [load_model]

/-- C6, counterexample: a file whose extraction succeeds with empty text (an
empty PDF) produces a record with empty `normalized_text` that IS fed to
`rank_resumes` — the run succeeds and the record is not excluded. -/
theorem C6_counterexample :
    (process_resumes_worker true M0 [] ["empty.pdf"] exOkEmpty
      "R" "D").resumesUsed.any (fun r => decide (r.text = "")) = true := by
  decide

/-- C6, amended: the records fed to the matching engine are exactly the
records of the files whose extraction succeeded (failed extractions are
excluded and reported separately); each carries `normalize_text` of its
extracted text, which may be the empty string — empty `normalized_text` does
not cause exclusion. -/
theorem C6_amended_engine_inputs (modelSaved : Bool) (model : STModel)
    (files : List String) (extractor : String → Except String String)
    (role description : String) :
    (process_resumes_worker modelSaved model [] files extractor
      role description).resumesUsed = extractResumes extractor files ∧
    (∀ r ∈ (process_resumes_worker modelSaved model [] files extractor
      role description).resumesUsed,
      ∃ p t, p ∈ files ∧ extractor p = Except.ok t ∧
        r.text = normalize_text t) := by
  refine ⟨worker_resumesUsed modelSaved model files extractor role description, ?_⟩
  intro r hr
  rw [worker_resumesUsed modelSaved model files extractor role description] at hr
  obtain ⟨p, t, hp, hok, rfl⟩ := mem_extractResumes hr
  exact ⟨p, t, hp, hok, rfl⟩

/-- C6, witness: the amended theorem on the empty-text run — the single
record fed to the engine comes from the successfully extracted file and
carries `normalize_text ""` (the empty string). -/
theorem C6_witness :
    ∃ p t, p ∈ ["empty.pdf"] ∧ exOkEmpty p = Except.ok t ∧
      (buildResume "empty.pdf" "").text = normalize_text t :=
  (C6_amended_engine_inputs true M0 ["empty.pdf"] exOkEmpty "R" "D").2
    (buildResume "empty.pdf" "") (by decide)

/-- C7: the ranking step (`sorted(..., key=lambda x: x[1], reverse=True)`)
sorts by score descending, keeps entries with equal scores in their input
order, and neither drops nor duplicates entries; on the concrete input
`[(A, 0.5714), (B, 0.9), (C, 0.5714)]` it yields
`[(B, 0.9), (A, 0.5714), (C, 0.5714)]`. -/
theorem C7_ranking :
    (∀ l : List (Resume × ℚ),
      sortedDescB (sortDesc l) = true ∧
      (∀ v : ℚ, (sortDesc l).filter (fun q => decide (q.2 = v)) =
        l.filter (fun q => decide (q.2 = v))) ∧
      (sortDesc l).length = l.length) ∧
    sortDesc [(rA, (0.5714 : ℚ)), (rB, 0.9), (rC, 0.5714)] =
      [(rB, 0.9), (rA, 0.5714), (rC, 0.5714)] := by
  constructor
  · intro l
    exact ⟨sortedDescB_sortDesc l, fun v => filter_score_sortDesc v l,
      length_sortDesc l⟩
  · norm_num [sortDesc, insertDesc]

/-- C8: de-spacing collapses spaced-out uppercase runs (`"J O H N Smith"` →
`"JOHN Smith"`, `"A B C 1 2 3"` → `"ABC 1 2 3"`) and leaves lowercase
letters, digits and punctuation alone (`"a b c"` is unchanged); in general
normalization never deletes, changes, or reorders non-whitespace
characters. -/
theorem C8_despacing :
    normalize_text "J O H N Smith" = "JOHN Smith" ∧
    normalize_text "A B C 1 2 3" = "ABC 1 2 3" ∧
    normalize_text "a b c" = "a b c" ∧
    (∀ s : String, (normalize_text s).data.filter (fun c => !isSpaceChar c) =
      s.data.filter (fun c => !isSpaceChar c)) := by
  refine ⟨by decide, by decide, by decide, ?_⟩
  intro s
  exact normalizeList_filter_nonspace s.data

/-- C9: `normalize_text` strips leading/trailing whitespace and collapses
every whitespace run to one ASCII space:
`"  Hello\n\n  World  "` becomes `"Hello World"`, the empty string maps to
the empty string without error, and every output is in whitespace normal form
(no non-space whitespace, no adjacent spaces, no spaces at the ends). -/
theorem C9_whitespace_collapse :
    normalize_text "  Hello\n\n  World  " = "Hello World" ∧
    normalize_text "" = "" ∧
    (∀ s : String, wsNormal (normalize_text s).data = true) := by
  refine ⟨by decide, by decide, ?_⟩
  intro s
  exact wsNormal_normalizeList s.data

/-- C10: every record built by the extraction pipeline carries a non-empty
candidate name — when `extract_candidate_name` returns the empty string
(which happens exactly when every line of the raw text is blank), the name
is set to the literal `"Unknown Name"`; hence no record fed to the engine has
an empty name. -/
theorem C10_candidate_name :
    (∀ path raw : String,
      (buildResume path raw).candidate_name ≠ "" ∧
      (extract_candidate_name raw = "" →
        (buildResume path raw).candidate_name = "Unknown Name")) ∧
    (∀ raw : String, extract_candidate_name raw = "" ↔
      ∀ line ∈ splitlines raw.data, stripList line = []) ∧
    (∀ (modelSaved : Bool) (model : STModel) (files : List String)
      (extractor : String → Except String String) (role description : String)
      (r : Resume),
      r ∈ (process_resumes_worker modelSaved model [] files extractor
        role description).resumesUsed → r.candidate_name ≠ "") := by
  refine ⟨?_, ?_, ?_⟩
  · intro path raw
    exact ⟨buildResume_name_ne path raw, buildResume_name_unknown path raw⟩
  · intro raw
    unfold extract_candidate_name
    constructor
    · intro h
      have hl : extractCandidateNameL raw.data = [] := by
        have := congrArg String.data h
        exact this
      exact (extractCandidateNameL_eq_nil_iff raw.data).mp hl
    · intro h
      have hl : extractCandidateNameL raw.data = [] :=
        (extractCandidateNameL_eq_nil_iff raw.data).mpr h
      rw [hl]
  · intro modelSaved model files extractor role description r hr
    rw [worker_resumesUsed modelSaved model files extractor role description] at hr
    obtain ⟨p, t, -, -, rfl⟩ := mem_extractResumes hr
    exact buildResume_name_ne p t

/-- C10, witness: a raw text whose lines are all blank yields the name
`"Unknown Name"`, and the record built in a concrete run has a non-empty
name. -/
theorem C10_witness :
    (buildResume "p.pdf" "  \n \t\n").candidate_name = "Unknown Name" ∧
    (buildResume "empty.pdf" "").candidate_name ≠ "" := by
  constructor
  · exact (C10_candidate_name.1 "p.pdf" "  \n \t\n").2 (by decide)
  · exact C10_candidate_name.2.2 true M0 ["empty.pdf"] exOkEmpty "R" "D"
      (buildResume "empty.pdf" "") (by decide)

end ResumeMatcher
